import Mathlib

/-!
Verification of the Mattress interactive 3D product viewer.

This file gives a shallow embedding, in Lean, of the view-state controller of
the repository: the stage arithmetic of `App.tsx`, the named-section
recognizer (`parseNamedParts` and its regular expression), the
visibility/isolation engine (`isolatePart`, `cloneMaterials`), the explode
controller (`setExplode`, `applyExplodedZoom`), the wheel gesture router
(`onWheel`), the mobile section-name promotion
(`promoteSectionNamesToParts`), the loader state transition (`loadGLB`) and
the orbit retargeting (`setOrbitTargetTo`).

JavaScript numbers are modelled as rationals (`ℚ`): all the arithmetic the
embedded code performs (comparison, min/max clamping, addition,
multiplication by small constants) is exact on the values involved, so no
floating-point rounding is modelled.  JavaScript's `%` on numbers is
truncated remainder, modelled by `Int.tmod`.  The `setTimeout`-based wheel
cooldown flag is modelled by remembering the timestamp of the last accepted
wheel event: the flag is set exactly during the 260 ms following it.
-/

namespace Mattress

/-! ## Stage arithmetic (App.tsx)

`totalStages = 2 + namedParts.length`;
`loopIndex = (i) => (totalStages <= 0 ? 0 : (i % totalStages + totalStages) % totalStages)`;
`nextStage`/`prevStage` move by ±1 through `loopIndex`. -/

def totalStages (numSections : ℕ) : ℤ := 2 + numSections

def loopIndex (total : ℤ) (i : ℤ) : ℤ :=
  if total ≤ 0 then 0 else ((i.tmod total) + total).tmod total

def nextStage (total : ℤ) (s : ℤ) : ℤ := loopIndex total (s + 1)

def prevStage (total : ℤ) (s : ℤ) : ℤ := loopIndex total (s - 1)

/-! ## Named-section recognizer (App.tsx `parseNamedParts`)

The source applies the regular expression
`/^(?:\s*(?:sec|se|section)\s*)(\d+)\s*$/i` to `(name || '').trim()` and, on
a match, parses the captured digits with `parseInt(m[1], 10)`.  The matcher
below works on the character list of the name: it mirrors the regex as
"optional whitespace, one of the alternatives `sec`, `se`, `section`
case-insensitively (tried in the source's alternation order — each
alternative is attempted against the whole remainder, which is exactly what
regex backtracking does here), optional whitespace, one or more ASCII
digits, optional whitespace, end of string". -/

/-- The JavaScript `\s` / `trim` whitespace characters that can occur in
asset part names (ASCII whitespace plus NBSP). -/
def isWS (c : Char) : Bool :=
  c == ' ' || c == '\t' || c == '\n' || c == '\r' || c == '\x0b' ||
    c == '\x0c' || c == '\u00A0'

/-- JavaScript `String.prototype.trim`, on the character list. -/
def jsTrim (s : List Char) : List Char :=
  ((s.dropWhile isWS).reverse.dropWhile isWS).reverse

/-- Case-insensitive character comparison, as the `i` regex flag performs on
ASCII letters. -/
def lowEq (c d : Char) : Bool := c.toLower == d.toLower

/-- Strip a literal token (given lowercase) from the front of the input,
case-insensitively; `none` when the input does not start with it. -/
def stripTokCI : List Char → List Char → Option (List Char)
  | [], s => some s
  | _ :: _, [] => none
  | t :: ts, c :: cs => if lowEq c t then stripTokCI ts cs else none

/-- Value of a digit string, as `parseInt(·, 10)` computes it. -/
def digitsToNat (ds : List Char) : ℕ :=
  ds.foldl (fun acc c => 10 * acc + (c.toNat - '0'.toNat)) 0

/-- Match `^\s* tok \s* (\d+) \s*$` against the input, returning the parsed
capture. -/
def matchTok (tok : List Char) (s : List Char) : Option ℕ :=
  match stripTokCI tok (s.dropWhile isWS) with
  | none => none
  | some s2 =>
    let s3 := s2.dropWhile isWS
    let ds := s3.takeWhile Char.isDigit
    if ds.isEmpty then none
    else if ((s3.dropWhile Char.isDigit).dropWhile isWS).isEmpty then
      some (digitsToNat ds)
    else none

/-- The full recognizer: trim, then the three alternatives in the source's
order `sec|se|section`.  Returns the parsed section number on a match. -/
def sectionNum (name : String) : Option ℕ :=
  let t := jsTrim name.data
  match matchTok ['s', 'e', 'c'] t with
  | some n => some n
  | none =>
    match matchTok ['s', 'e'] t with
    | some n => some n
    | none => matchTok ['s', 'e', 'c', 't', 'i', 'o', 'n'] t

/-- `rx.test(x)` as used by the viewers on (already trimmed) names. -/
def rxTest (s : String) : Bool := (sectionNum s).isSome

/-- Modelled from the spec's words, for comparison with `sectionNum`: the
full trimmed text is one of the tokens `sec`/`se`/`section`
(case-insensitive) followed by a decimal integer, with optional surrounding
whitespace and nothing else. -/
def isSpecSectionName (name : String) : Prop :=
  ∃ w0 tok w1 ds w2 : List Char,
    (∀ c ∈ w0, isWS c = true) ∧
    (tok.map Char.toLower = ['s', 'e', 'c'] ∨
      tok.map Char.toLower = ['s', 'e'] ∨
      tok.map Char.toLower = ['s', 'e', 'c', 't', 'i', 'o', 'n']) ∧
    (∀ c ∈ w1, isWS c = true) ∧
    ds ≠ [] ∧ (∀ c ∈ ds, Char.isDigit c = true) ∧
    (∀ c ∈ w2, isWS c = true) ∧
    jsTrim name.data = w0 ++ tok ++ w1 ++ ds ++ w2

/-! ## Part registry (App.tsx `parseNamedParts`)

`allNames.forEach` collects `{name, index, num}` for every name the regex
accepts, then `picks.sort((a, b) => a.num - b.num)` sorts by parsed number.
`Array.prototype.sort` is stable, so the sort is modelled by insertion sort
with the non-strict key comparison. -/

structure NamedPart where
  name : String
  index : ℕ
  num : ℕ
deriving DecidableEq, Repr

def numLE (a b : NamedPart) : Prop := a.num ≤ b.num

instance : DecidableRel numLE := fun a b => inferInstanceAs (Decidable (a.num ≤ b.num))

def parseNamedParts (allNames : List String) : List NamedPart :=
  let picks := allNames.enum.filterMap fun p =>
    match sectionNum p.2 with
    | some n => some ⟨p.2, p.1, n⟩
    | none => none
  List.insertionSort numLE picks

/-! ## Visibility/isolation engine (viewer.ts `cloneMaterials`, `isolatePart`)

Materials carry the fields the engine writes plus the `savedMatProps` entry
(`{transparent, opacity}`) recorded once by `cloneMaterials`. -/

structure Mat where
  transparent : Bool
  opacity : ℚ
  depthWrite : Bool
  colorWrite : Bool
  alphaTest : ℚ
  saved : Option (Bool × ℚ)
deriving DecidableEq, Repr

/-- `cloneMaterials`'s `wrap`: records the base opacity (the raw material
opacity when it is a number above 0.1, else 1), forces transparency and
depth write, and stores the saved properties. -/
def wrapMaterial (rawTransparent : Bool) (rawOpacity : Option ℚ)
    (rawAlphaTest : Option ℚ) : Mat :=
  let baseOpacity : ℚ :=
    match rawOpacity with
    | some r => if r > 0.1 then r else 1
    | none => 1
  { transparent := true
    opacity := baseOpacity
    depthWrite := true
    colorWrite := true
    alphaTest := rawAlphaTest.getD 0
    saved := some (rawTransparent, baseOpacity) }

structure IsoPart where
  visible : Bool
  mats : List Mat
deriving DecidableEq, Repr

/-- `isolatePart(index, dimOpacity)`: clamp the dim opacity to
`[0.08, 0.5]`, force every part visible, and set every mesh material of the
part either to `max(0.98, base)` (when `index === null || i === index`) or
to the clamped dim value. -/
def isolatePart (index : Option ℕ) (dimOpacity : ℚ) (ps : List IsoPart) :
    List IsoPart :=
  let dim := max 0.08 (min 0.5 dimOpacity)
  ps.enum.map fun pr =>
    { visible := true
      mats := pr.2.mats.map fun m =>
        let base := (m.saved.map Prod.snd).getD 1
        { m with
            transparent := true
            opacity := if index = none ∨ index = some pr.1 then max 0.98 base else dim
            depthWrite := true
            colorWrite := true } }

/-- The restoration `isolatePart` applies to a fully un-isolated part:
material opacity `max(0.98, base)`, everything visible. -/
def restorePart (p : IsoPart) : IsoPart :=
  { visible := true
    mats := p.mats.map fun m =>
      { m with
          transparent := true
          opacity := max 0.98 ((m.saved.map Prod.snd).getD 1)
          depthWrite := true
          colorWrite := true } }

/-! ## Explode controller (viewer.ts `setExplode` at `t = 1`,
`applyExplodedZoom`, and the mixer's per-frame clip advance)

Clips are one-shot (`LoopOnce`) and clamped (`clampWhenFinished`), so the
per-frame mixer update advances an unpaused action's time by
`dt × timeScale` and pauses it clamped at the boundary it reaches.
`applyExplodedZoom` starts the smooth zoom-out only when the
`_explodedZoomApplied` flag is still unset; `zoomStarts` counts the zoom
animations launched. -/

structure ClipAction where
  duration : ℚ
  time : ℚ
  paused : Bool
  timeScale : ℚ
  enabled : Bool
deriving DecidableEq, Repr

structure ExplodeSt where
  hasMixer : Bool
  actions : List ClipAction
  explodeState : Bool
  zoomApplied : Bool
  zoomStarts : ℕ
deriving DecidableEq, Repr

def applyExplodedZoom (s : ExplodeSt) : ExplodeSt :=
  if s.zoomApplied then s
  else { s with zoomStarts := s.zoomStarts + 1, zoomApplied := true }

/-- `setExplode(1)`: no-op without mixer or actions; from the exploded state
snap every clip to its end time paused; from overview reset every clip to
time 0 and play it forward; in both cases apply the (guarded) exploded zoom
and record the exploded state. -/
def setExplodeFull (s : ExplodeSt) : ExplodeSt :=
  if ¬s.hasMixer ∨ s.actions.isEmpty then s
  else if s.explodeState then
    let s' := { s with actions := s.actions.map fun a =>
      { a with enabled := true, time := a.duration, paused := true, timeScale := 1 } }
    { applyExplodedZoom s' with explodeState := true }
  else
    let s' := { s with actions := s.actions.map fun a =>
      { a with enabled := true, time := 0, paused := false, timeScale := 1 } }
    { applyExplodedZoom s' with explodeState := true }

/-- One render-loop mixer update of `dt` seconds on a one-shot clamped
action. -/
def tickAction (dt : ℚ) (a : ClipAction) : ClipAction :=
  if a.paused || !a.enabled then a
  else
    let t := a.time + dt * a.timeScale
    if 0 < a.timeScale ∧ a.duration ≤ t then { a with time := a.duration, paused := true }
    else if a.timeScale < 0 ∧ t ≤ 0 then { a with time := 0, paused := true }
    else { a with time := t }

def tick (dt : ℚ) (s : ExplodeSt) : ExplodeSt :=
  { s with actions := s.actions.map (tickAction dt) }

/-! ## Wheel gesture router (App.tsx `onWheel`)

With ctrl/meta the event is a dolly (no stage change).  Otherwise the event
is dropped while the cooldown flag is set or when `|deltaY| < 30`; an
accepted event changes the stage by ±1 and sets the flag, which a 260 ms
`setTimeout` clears — modelled by the timestamp of the last accepted
event: the flag is set at `now` exactly when an event was accepted at some
`t` with `now - t < 260`. -/

structure WheelSt where
  lastAccept : Option ℚ
  stage : ℤ
  numSections : ℕ
deriving DecidableEq, Repr

def cooldownActive (now : ℚ) (s : WheelSt) : Bool :=
  match s.lastAccept with
  | some t => now - t < 260
  | none => false

def onWheel (now deltaY : ℚ) (ctrlOrMeta : Bool) (s : WheelSt) : WheelSt :=
  if ctrlOrMeta then s
  else if cooldownActive now s then s
  else if |deltaY| < 30 then s
  else
    { s with
        lastAccept := some now
        stage :=
          if deltaY > 0 then nextStage (totalStages s.numSections) s.stage
          else prevStage (totalStages s.numSections) s.stage }

/-! ## Scene graph, part gathering and the mobile name promotion

`Node` models a `THREE.Object3D` subtree: a name, whether the node itself
is a mesh, and its children.  `traverse` visits the node itself first and
then each child's subtree (preorder). -/

inductive Node where
  | mk (name : String) (isMesh : Bool) (children : List Node)

def Node.name : Node → String
  | .mk n _ _ => n

def Node.isMesh : Node → Bool
  | .mk _ m _ => m

def Node.children : Node → List Node
  | .mk _ _ cs => cs

mutual
/-- `ch.traverse(o => { if (o.isMesh) hasMesh = true })`: does the subtree
(including the node itself) contain a mesh? -/
def Node.hasMeshIn : Node → Bool
  | .mk _ m cs => m || hasMeshInList cs
def hasMeshInList : List Node → Bool
  | [] => false
  | c :: cs => Node.hasMeshIn c || hasMeshInList cs
end

mutual
/-- Structural node equality (a JavaScript `Set` compares object identity;
the model identifies nodes by their structure). -/
def Node.beq : Node → Node → Bool
  | .mk n1 m1 cs1, .mk n2 m2 cs2 => n1 == n2 && m1 == m2 && beqNodeList cs1 cs2
def beqNodeList : List Node → List Node → Bool
  | [], [] => true
  | a :: as', b :: bs => Node.beq a b && beqNodeList as' bs
  | _, _ => false
end

instance : BEq Node := ⟨Node.beq⟩

/-- First-insertion-order deduplication, as a JavaScript `Set` iterates. -/
def dedupFirst [BEq α] (l : List α) : List α :=
  l.foldl (fun acc x => if acc.contains x then acc else acc ++ [x]) []

mutual
/-- The parents (inside the subtree; the root has no parent at gather time)
of mesh nodes, in `traverse` preorder. -/
def meshParents (par : Option Node) : Node → List Node
  | .mk nm m cs =>
    (if m then par.toList else []) ++ meshParentsList (.mk nm m cs) cs
def meshParentsList (par : Node) : List Node → List Node
  | [] => []
  | c :: cs => meshParents (some par) c ++ meshParentsList par cs
end

/-- `gatherParts`: the direct children of the root that contain a mesh; if
none qualify, fall back to the deduplicated parents of every mesh. -/
def gatherParts (root : Node) : List Node :=
  let direct := root.children.filter Node.hasMeshIn
  if direct.isEmpty then dedupFirst (meshParents none root) else direct

/-- `partNames = parts.map((p, i) => p.name || 'Part ' + (i + 1))`. -/
def partNamesOf (parts : List Node) : List String :=
  parts.enum.map fun pr =>
    if pr.2.name = "" then "Part " ++ toString (pr.1 + 1) else pr.2.name

/-- The string a part name contributes after `trim`, mirroring
`(o.name || '').trim()`. -/
def trimS (s : String) : String := ⟨jsTrim s.data⟩

mutual
/-- The `chosen` computed by the mobile `promoteSectionNamesToParts`
traverse: the first node in preorder whose trimmed name is nonempty and
matches the section pattern, yielding that trimmed name. -/
def firstChosen : Node → Option String
  | .mk nm m cs =>
    let n := trimS nm
    if n ≠ "" ∧ rxTest n then some n else firstChosenList cs
def firstChosenList : List Node → Option String
  | [] => none
  | c :: cs =>
    match firstChosen c with
    | some x => some x
    | none => firstChosenList cs
end

/-- Mobile `promoteSectionNamesToParts`, on one part: keep a matching own
name; otherwise promote the first matching (trimmed) descendant name. -/
def promotePart (p : Node) : Node :=
  let chosen : Option String :=
    if rxTest (trimS p.name) then some p.name else firstChosen p
  match chosen with
  | some c => .mk c p.isMesh p.children
  | none => p

def promoteSectionNamesToParts (ps : List Node) : List Node :=
  ps.map promotePart

mutual
/-- The preorder node list of a subtree (the order `traverse` visits). -/
def preorder : Node → List Node
  | .mk nm m cs => .mk nm m cs :: preorderList cs
def preorderList : List Node → List Node
  | [] => []
  | c :: cs => preorder c ++ preorderList cs
end

/-! ## Loader state transition (viewer.ts `loadGLB`)

The GLB decode outcome is a `GLTF`: an optional `scene`, a `scenes` list
and an `animations` clip list.  `loadGLB` first cancels any zoom animation,
removes and disposes the previous model and clears the mixer, actions, clip
tables, parts and names; only then does it look for a usable root
(`gltf.scene || gltf.scenes[0]`), rejecting when there is none. -/

structure Clip where
  name : String
  duration : ℚ
deriving DecidableEq, Repr

structure GLTF where
  scene : Option Node
  scenes : List Node
  animations : List Clip

def rootOf (g : GLTF) : Option Node :=
  match g.scene with
  | some r => some r
  | none => g.scenes.head?

/-- Clip action key: `clip.name?.length ? clip.name : 'Clip_' + i`. -/
def clipKey (i : ℕ) (c : Clip) : String :=
  if c.name = "" then "Clip_" ++ toString i else c.name

structure LoadState where
  currentModel : Option Node
  parts : List Node
  partNames : List String
  clipNames : List String
  clipDurations : List (String × ℚ)
  hasMixer : Bool
  explodeState : Bool
  zoomApplied : Bool

/-- The state `loadGLB` installs before parsing: previous model removed and
disposed, mixer stopped, all part/clip tables cleared. -/
def clearedLoadState : LoadState :=
  { currentModel := none
    parts := []
    partNames := []
    clipNames := []
    clipDurations := []
    hasMixer := false
    explodeState := false
    zoomApplied := false }

/-- `loadGLB`: returns whether the promise resolved, together with the
viewer state afterwards. -/
def loadGLB (_s : LoadState) (g : GLTF) : Bool × LoadState :=
  match rootOf g with
  | none => (false, clearedLoadState)
  | some root =>
    let parts := gatherParts root
    (true,
      { currentModel := some root
        parts := parts
        partNames := partNamesOf parts
        clipNames := g.animations.enum.map fun pr => clipKey pr.1 pr.2
        clipDurations := g.animations.enum.map fun pr => (clipKey pr.1 pr.2, pr.2.duration)
        hasMixer := !g.animations.isEmpty
        explodeState := false
        zoomApplied := false })

/-! ## Orbit retargeting (viewer.ts `setOrbitTargetTo`)

`target_desired` is set to the centroid for `null`, negative or
out-of-range indices, else to the center of the part's world bounding box
(`Box3.getCenter` = midpoint of min and max).  Nothing else is written. -/

structure V3 where
  x : ℚ
  y : ℚ
  z : ℚ
deriving DecidableEq, Repr

def boxCenter (mn mx : V3) : V3 :=
  ⟨(mn.x + mx.x) / 2, (mn.y + mx.y) / 2, (mn.z + mx.z) / 2⟩

structure OrbitState where
  hasControls : Bool
  partBoxes : List (V3 × V3)
  centroid : V3
  targetDesired : V3
  autoRotate : Bool
  stage : ℤ
deriving DecidableEq, Repr

/-- `getPartWorldCenter(index)` for an in-range index. -/
def getPartWorldCenter (boxes : List (V3 × V3)) (i : ℕ) : V3 :=
  match boxes.get? i with
  | some b => boxCenter b.1 b.2
  | none => ⟨0, 0, 0⟩

def setOrbitTargetTo (index : Option ℤ) (s : OrbitState) : OrbitState :=
  if ¬s.hasControls then s
  else
    match index with
    | none => { s with targetDesired := s.centroid }
    | some i =>
      if i < 0 ∨ (s.partBoxes.length : ℤ) ≤ i then
        { s with targetDesired := s.centroid }
      else
        { s with targetDesired := getPartWorldCenter s.partBoxes i.toNat }

/-- The traverse test of `promoteSectionNamesToParts`, as a predicate on a
node: nonempty trimmed name that matches the section pattern. -/
def nodeMatches (o : Node) : Bool :=
  decide (trimS o.name ≠ "" ∧ rxTest (trimS o.name) = true)

/-! ## Concrete example data used by witnesses and counterexamples -/

def demoMat : Mat := wrapMaterial false (some 0.5) none

def demoParts : List IsoPart := [⟨true, [demoMat]⟩]

def demoHiddenPart : IsoPart := ⟨false, []⟩

def demoExplode : ExplodeSt :=
  { hasMixer := true
    actions := [⟨2, 0, true, 1, true⟩]
    explodeState := false
    zoomApplied := false
    zoomStarts := 0 }

def demoWheel : WheelSt := { lastAccept := some 0, stage := 1, numSections := 2 }

def demoTree : Node := .mk "Bed" false [.mk "inner" false [], .mk " sec 4 " true []]

def demoLoaded : LoadState :=
  { currentModel := some (.mk "Root" false [.mk "m" true []])
    parts := [.mk "m" true []]
    partNames := ["sec 1"]
    clipNames := ["Clip_0"]
    clipDurations := [("Clip_0", 2)]
    hasMixer := true
    explodeState := false
    zoomApplied := false }

def demoBadGLTF : GLTF := { scene := none, scenes := [], animations := [] }

def demoOrbit : OrbitState :=
  { hasControls := true
    partBoxes := [(⟨0, 0, 0⟩, ⟨2, 4, 6⟩)]
    centroid := ⟨1, 1, 1⟩
    targetDesired := ⟨0, 0, 0⟩
    autoRotate := true
    stage := 0 }

/-! # Theorems -/

/-! ## Stage arithmetic -/

lemma tmod_neg_left (a b : ℤ) : (-a).tmod b = -(a.tmod b) := by
  rw [Int.tmod_def, Int.tmod_def, Int.neg_tdiv]
  ring

lemma tmod_lower (i T : ℤ) (hT : 0 < T) : -T < i.tmod T := by
  rcases le_or_lt 0 i with h | h
  · have := Int.tmod_nonneg T h
    omega
  · have h2 : (-i).tmod T < T := Int.tmod_lt_of_pos (-i) hT
    have h3 : (-i).tmod T = -(i.tmod T) := tmod_neg_left i T
    omega

/-- `loopIndex` is the floor-correct (Euclidean) remainder for a positive
modulus. -/
lemma loopIndex_eq_emod (T i : ℤ) (hT : 0 < T) : loopIndex T i = i % T := by
  unfold loopIndex
  rw [if_neg (by omega)]
  have hlow := tmod_lower i T hT
  have hhi : i.tmod T < T := Int.tmod_lt_of_pos i hT
  rw [Int.tmod_eq_emod (by omega) (by omega), Int.tmod_def]
  have h : i - T * i.tdiv T + T = i + T * (1 - i.tdiv T) := by ring
  rw [h, Int.add_mul_emod_self_left]

lemma nextStage_iterate (T : ℤ) (hT : 0 < T) (s : ℤ) :
    ∀ k : ℕ, 1 ≤ k → (nextStage T)^[k] s = (s + k) % T := by
  intro k
  induction k with
  | zero => omega
  | succ k ih =>
    intro _
    rcases Nat.eq_zero_or_pos k with hk | hk
    · subst hk
      simp only [Function.iterate_succ_apply', Function.iterate_zero_apply,
        nextStage, loopIndex_eq_emod _ _ hT]
      norm_num
    · rw [Function.iterate_succ_apply', ih hk]
      simp only [nextStage, loopIndex_eq_emod _ _ hT]
      calc ((s + (k : ℤ)) % T + 1) % T
          = ((s + (k : ℤ)) % T % T + 1 % T) % T := by rw [← Int.add_emod]
        _ = ((s + (k : ℤ)) % T + 1 % T) % T := by
            rw [Int.emod_emod_of_dvd _ dvd_rfl]
        _ = ((s + (k : ℤ)) + 1) % T := by rw [← Int.add_emod]
        _ = (s + ((k : ℕ) + 1 : ℕ)) % T := by push_cast; ring_nf

/-- C3: for every stage index `s` in range, applying `nextStage` once and
then `totalStages - 1` further times returns to `s`; stage arithmetic is a
floor-correct modulo (`loopIndex` equals the Euclidean remainder, so
negative values wrap to the top); and with 2 named sections
(`totalStages = 4`) `prevStage` from stage 0 yields stage 3. -/
theorem stage_cycle_wraparound :
    (∀ (n : ℕ) (s : ℤ), 0 ≤ s → s < totalStages n →
      (nextStage (totalStages n))^[2 + n] s = s) ∧
    (∀ (T i : ℤ), 0 < T → loopIndex T i = i % T) ∧
    prevStage (totalStages 2) 0 = 3 := by
  refine ⟨?_, fun T i hT => loopIndex_eq_emod T i hT, by decide⟩
  intro n s h0 hs
  have hT : (0 : ℤ) < totalStages n := by
    unfold totalStages
    positivity
  rw [nextStage_iterate (totalStages n) hT s (2 + n) (by omega)]
  have hcast : ((2 + n : ℕ) : ℤ) = totalStages n := by
    unfold totalStages
    push_cast
    ring
  rw [hcast]
  have h1 : (s + totalStages n) % totalStages n = s % totalStages n := by
    have h : s + totalStages n = s + totalStages n * 1 := by ring
    rw [h, Int.add_mul_emod_self_left]
  rw [h1, Int.emod_eq_of_lt h0 hs]

/-- Witness for C3 at `n = 2`, `s = 1`. -/
theorem stage_cycle_wraparound_witness :
    (0 : ℤ) ≤ 1 ∧ (1 : ℤ) < totalStages 2 ∧
      (nextStage (totalStages 2))^[2 + 2] 1 = 1 := by
  refine ⟨by decide, by decide, ?_⟩
  exact stage_cycle_wraparound.1 2 1 (by decide) (by decide)

/-! ## The named-section recognizer matches exactly the spec's language -/

lemma stripTokCI_some {tok s r : List Char} (h : stripTokCI tok s = some r) :
    ∃ pre, s = pre ++ r ∧ pre.map Char.toLower = tok.map Char.toLower := by
  induction tok generalizing s with
  | nil =>
    refine ⟨[], ?_, rfl⟩
    simpa [stripTokCI] using h
  | cons t ts ih =>
    cases s with
    | nil => simp [stripTokCI] at h
    | cons c cs =>
      by_cases hc : lowEq c t
      · simp only [stripTokCI, hc, if_true] at h
        obtain ⟨pre, hpre, hmap⟩ := ih h
        refine ⟨c :: pre, by simp [hpre], ?_⟩
        have : c.toLower = t.toLower := by
          simpa [lowEq] using hc
        simp [hmap, this]
      · simp [stripTokCI, hc] at h

lemma stripTokCI_append {tok pre : List Char}
    (h : pre.map Char.toLower = tok.map Char.toLower) (rest : List Char) :
    stripTokCI tok (pre ++ rest) = some rest := by
  induction tok generalizing pre with
  | nil =>
    have : pre = [] := by
      simpa using congrArg List.length h
    simp [this, stripTokCI]
  | cons t ts ih =>
    cases pre with
    | nil => simp at h
    | cons c cs =>
      simp only [List.map_cons, List.cons.injEq] at h
      have hc : lowEq c t := by
        simp [lowEq, h.1]
      simp [stripTokCI, hc, ih h.2]

lemma dropWhile_all_append {p : α → Bool} {w : List α} (l : List α)
    (h : ∀ c ∈ w, p c = true) :
    (w ++ l).dropWhile p = l.dropWhile p := by
  induction w with
  | nil => simp
  | cons c cs ih =>
    simp only [List.cons_append, List.dropWhile_cons, h c (by simp), if_true]
    exact ih fun x hx => h x (by simp [hx])

lemma takeWhile_all_append {p : α → Bool} {ds w : List α}
    (hds : ∀ c ∈ ds, p c = true) (hw : ∀ c, w.head? = some c → p c = false) :
    (ds ++ w).takeWhile p = ds ∧ (ds ++ w).dropWhile p = w := by
  induction ds with
  | nil =>
    cases w with
    | nil => simp
    | cons c cs =>
      have := hw c rfl
      simp [List.takeWhile_cons, List.dropWhile_cons, this]
  | cons d ds' ih =>
    have hd := hds d (by simp)
    have hrest := ih fun x hx => hds x (by simp [hx])
    simp [List.takeWhile_cons, List.dropWhile_cons, hd, hrest.1, hrest.2]

lemma mem_of_head? {l : List α} {x : α} (h : l.head? = some x) : x ∈ l := by
  cases l with
  | nil => simp at h
  | cons a as =>
    simp only [List.head?_cons, Option.some.injEq] at h
    subst h
    simp

lemma ws_cases {c : Char} (h : isWS c = true) :
    c = ' ' ∨ c = '\t' ∨ c = '\n' ∨ c = '\r' ∨ c = '\x0b' ∨
      c = '\x0c' ∨ c = '\u00A0' := by
  simp only [isWS, Bool.or_eq_true, beq_iff_eq] at h
  tauto

lemma toLower_s_not_ws {c : Char} (h : c.toLower = 's') : isWS c = false := by
  by_contra h2
  rcases ws_cases (by simpa using h2) with h3 | h3 | h3 | h3 | h3 | h3 | h3 <;>
    subst h3 <;> exact absurd h (by decide)

lemma digit_not_ws {c : Char} (h : Char.isDigit c = true) : isWS c = false := by
  by_contra h2
  rcases ws_cases (by simpa using h2) with h3 | h3 | h3 | h3 | h3 | h3 | h3 <;>
    subst h3 <;> simp at h

lemma ws_not_digit {c : Char} (h : isWS c = true) : Char.isDigit c = false := by
  by_contra h2
  have := digit_not_ws (by simpa using h2)
  rw [this] at h
  exact Bool.false_ne_true h

lemma matchTok_some {tok t : List Char} {n : ℕ} (h : matchTok tok t = some n) :
    ∃ w0 pre w1 ds w2 : List Char,
      t = w0 ++ pre ++ w1 ++ ds ++ w2 ∧ (∀ c ∈ w0, isWS c = true) ∧
        pre.map Char.toLower = tok.map Char.toLower ∧
        (∀ c ∈ w1, isWS c = true) ∧ ds ≠ [] ∧
        (∀ c ∈ ds, Char.isDigit c = true) ∧ (∀ c ∈ w2, isWS c = true) := by
  unfold matchTok at h
  cases hstrip : stripTokCI tok (t.dropWhile isWS) with
  | none => rw [hstrip] at h; exact absurd h (by simp)
  | some s2 =>
    rw [hstrip] at h
    simp only [] at h
    by_cases hds : ((s2.dropWhile isWS).takeWhile Char.isDigit).isEmpty
    · rw [if_pos hds] at h
      exact absurd h (by simp)
    · rw [if_neg hds] at h
      by_cases hrest :
          (((s2.dropWhile isWS).dropWhile Char.isDigit).dropWhile isWS).isEmpty
      · obtain ⟨pre, hpre, hmap⟩ := stripTokCI_some hstrip
        refine ⟨t.takeWhile isWS, pre, s2.takeWhile isWS,
          (s2.dropWhile isWS).takeWhile Char.isDigit,
          (s2.dropWhile isWS).dropWhile Char.isDigit, ?_, ?_, hmap, ?_, ?_, ?_, ?_⟩
        · conv_lhs => rw [← List.takeWhile_append_dropWhile isWS t]
          rw [hpre]
          conv_lhs => rw [← List.takeWhile_append_dropWhile isWS s2]
          rw [← List.takeWhile_append_dropWhile Char.isDigit (s2.dropWhile isWS)]
          simp [List.append_assoc]
        · exact fun c hc => List.mem_takeWhile_imp hc
        · exact fun c hc => List.mem_takeWhile_imp hc
        · simpa [List.isEmpty_iff] using hds
        · exact fun c hc => List.mem_takeWhile_imp hc
        · intro c hc
          rw [List.isEmpty_iff, List.dropWhile_eq_nil_iff] at hrest
          exact hrest c hc
      · rw [if_neg hrest] at h
        exact absurd h (by simp)

lemma matchTok_append {tok w0 pre w1 ds w2 : List Char}
    (hw0 : ∀ c ∈ w0, isWS c = true)
    (hmap : pre.map Char.toLower = tok.map Char.toLower)
    (hhead : ∀ c, pre.head? = some c → isWS c = false) (hpre : pre ≠ [])
    (hw1 : ∀ c ∈ w1, isWS c = true) (hds : ds ≠ [])
    (hdig : ∀ c ∈ ds, Char.isDigit c = true) (hw2 : ∀ c ∈ w2, isWS c = true) :
    matchTok tok (w0 ++ pre ++ w1 ++ ds ++ w2) = some (digitsToNat ds) := by
  obtain ⟨c, cs, rfl⟩ := List.exists_cons_of_ne_nil hpre
  have hc : isWS c = false := hhead c rfl
  have h1 : (w0 ++ (c :: cs) ++ w1 ++ ds ++ w2).dropWhile isWS =
      (c :: cs) ++ (w1 ++ ds ++ w2) := by
    rw [show w0 ++ (c :: cs) ++ w1 ++ ds ++ w2 =
      w0 ++ ((c :: cs) ++ (w1 ++ ds ++ w2)) by simp [List.append_assoc]]
    rw [dropWhile_all_append _ hw0]
    simp [List.dropWhile_cons, hc]
  have h2 : (w1 ++ ds ++ w2).dropWhile isWS = ds ++ w2 := by
    rw [List.append_assoc, dropWhile_all_append _ hw1]
    obtain ⟨d, ds', rfl⟩ := List.exists_cons_of_ne_nil hds
    have hdws : isWS d = false := digit_not_ws (hdig d (by simp))
    simp [List.dropWhile_cons, hdws]
  have h3 := takeWhile_all_append (p := Char.isDigit) (w := w2) hdig
    (fun x hx => ws_not_digit (hw2 x (mem_of_head? hx)))
  have hne : ds.isEmpty = false := by
    simpa [List.isEmpty_iff] using hds
  have hw2e : (w2.dropWhile isWS).isEmpty = true := by
    rw [List.isEmpty_iff, List.dropWhile_eq_nil_iff]
    exact hw2
  unfold matchTok
  rw [h1, stripTokCI_append hmap]
  simp only [h2, h3.1, h3.2, hne, hw2e, Bool.false_eq_true, if_false, if_true]

lemma sectionNum_isSome_cases {name : String} :
    (sectionNum name).isSome ↔
      (matchTok ['s', 'e', 'c'] (jsTrim name.data)).isSome ∨
        (matchTok ['s', 'e'] (jsTrim name.data)).isSome ∨
        (matchTok ['s', 'e', 'c', 't', 'i', 'o', 'n'] (jsTrim name.data)).isSome := by
  unfold sectionNum
  cases h1 : matchTok ['s', 'e', 'c'] (jsTrim name.data) with
  | some n => simp [h1]
  | none =>
    cases h2 : matchTok ['s', 'e'] (jsTrim name.data) with
    | some n => simp [h1, h2]
    | none => simp [h1, h2]

/-- C4: the named-section recognizer accepts exactly the names whose full
trimmed text is one of the tokens `sec`/`se`/`section` (case-insensitive)
followed by a decimal integer with optional surrounding whitespace and
nothing else; `"Section 4"`, `"sec4"` and `"SE 4"` all parse to section
number 4, while `"Section 4a"` and `"foo sec 4"` do not match. -/
theorem section_recognizer_exact :
    (∀ name : String, (sectionNum name).isSome ↔ isSpecSectionName name) ∧
      sectionNum "Section 4" = some 4 ∧ sectionNum "sec4" = some 4 ∧
      sectionNum "SE 4" = some 4 ∧ sectionNum "Section 4a" = none ∧
      sectionNum "foo sec 4" = none := by
  refine ⟨?_, by decide, by decide, by decide, by decide, by decide⟩
  intro name
  rw [sectionNum_isSome_cases]
  constructor
  · rintro (h | h | h) <;>
    · rw [Option.isSome_iff_exists] at h
      obtain ⟨n, hn⟩ := h
      obtain ⟨w0, pre, w1, ds, w2, ht, hw0, hmap, hw1, hds, hdig, hw2⟩ :=
        matchTok_some hn
      exact ⟨w0, pre, w1, ds, w2, hw0, by simp [hmap], hw1, hds, hdig, hw2,
        by simpa [List.append_assoc] using ht⟩
  · rintro ⟨w0, tok, w1, ds, w2, hw0, hmap, hw1, hds, hdig, hw2, ht⟩
    have hpre : tok ≠ [] := by
      rcases hmap with h | h | h <;>
        · intro hnil
          rw [hnil] at h
          simp at h
    have hhead : ∀ c, tok.head? = some c → isWS c = false := by
      intro c hc
      obtain ⟨c', cs', rfl⟩ := List.exists_cons_of_ne_nil hpre
      cases hc
      have : c.toLower = 's' := by
        rcases hmap with h | h | h <;> simpa using congrArg List.head? h
      exact toLower_s_not_ws this
    rcases hmap with h | h | h
    · refine Or.inl ?_
      rw [show jsTrim name.data = w0 ++ tok ++ w1 ++ ds ++ w2 by
        simpa [List.append_assoc] using ht]
      rw [matchTok_append hw0 (by simpa using h) hhead hpre hw1 hds hdig hw2]
      simp
    · refine Or.inr (Or.inl ?_)
      rw [show jsTrim name.data = w0 ++ tok ++ w1 ++ ds ++ w2 by
        simpa [List.append_assoc] using ht]
      rw [matchTok_append hw0 (by simpa using h) hhead hpre hw1 hds hdig hw2]
      simp
    · refine Or.inr (Or.inr ?_)
      rw [show jsTrim name.data = w0 ++ tok ++ w1 ++ ds ++ w2 by
        simpa [List.append_assoc] using ht]
      rw [matchTok_append hw0 (by simpa using h) hhead hpre hw1 hds hdig hw2]
      simp

/-- Witness for C4: the equivalence applied at the concrete name
`"SEC 7"`. -/
theorem section_recognizer_exact_witness : isSpecSectionName "SEC 7" :=
  (section_recognizer_exact.1 "SEC 7").mp (by decide)

/-! ## The named-section list is sorted by number, ties in traversal order -/

lemma lexLT_le {a b : NamedPart}
    (h : a.num < b.num ∨ (a.num = b.num ∧ a.index < b.index)) :
    a.num ≤ b.num := by
  rcases h with h | h
  · omega
  · omega

lemma orderedInsert_pairwise (a : NamedPart) (l : List NamedPart)
    (hl : List.Pairwise
      (fun x y => x.num < y.num ∨ (x.num = y.num ∧ x.index < y.index)) l)
    (ha : ∀ b ∈ l, a.index < b.index) :
    List.Pairwise (fun x y => x.num < y.num ∨ (x.num = y.num ∧ x.index < y.index))
      (List.orderedInsert numLE a l) := by
  induction l with
  | nil => simp
  | cons b l ih =>
    rw [List.pairwise_cons] at hl
    obtain ⟨hb, hpl⟩ := hl
    by_cases hab : numLE a b
    · rw [List.orderedInsert, if_pos hab]
      refine List.Pairwise.cons ?_ (List.Pairwise.cons hb hpl)
      intro c hc
      rcases List.mem_cons.mp hc with rfl | hc
      · rcases lt_or_eq_of_le hab with h | h
        · exact Or.inl h
        · exact Or.inr ⟨h, ha c (by simp)⟩
      · have hbc : b.num ≤ c.num := lexLT_le (hb c hc)
        have hac : a.num ≤ c.num := le_trans hab hbc
        rcases lt_or_eq_of_le hac with h | h
        · exact Or.inl h
        · exact Or.inr ⟨h, ha c (by simp [hc])⟩
    · rw [List.orderedInsert, if_neg hab]
      refine List.Pairwise.cons ?_ (ih hpl fun x hx => ha x (by simp [hx]))
      intro c hc
      have hc' : c ∈ a :: l := ((List.perm_orderedInsert numLE a l).mem_iff).mp hc
      rcases List.mem_cons.mp hc' with rfl | hc'
      · unfold numLE at hab
        exact Or.inl (by omega)
      · exact hb c hc'

lemma insertionSort_pairwise (l : List NamedPart)
    (h : List.Pairwise (fun a b => a.index < b.index) l) :
    List.Pairwise (fun x y => x.num < y.num ∨ (x.num = y.num ∧ x.index < y.index))
      (List.insertionSort numLE l) := by
  induction l with
  | nil => simp
  | cons a l ih =>
    rw [List.pairwise_cons] at h
    obtain ⟨ha, hl⟩ := h
    rw [List.insertionSort]
    refine orderedInsert_pairwise a _ (ih hl) ?_
    intro b hb
    exact ha b (((List.perm_insertionSort numLE l).mem_iff).mp hb)

lemma le_fst_of_mem_enumFrom {x : ℕ × α} {n : ℕ} {l : List α}
    (h : x ∈ List.enumFrom n l) : n ≤ x.1 := by
  induction l generalizing n with
  | nil => simp at h
  | cons a l ih =>
    rcases List.mem_cons.mp h with rfl | h
    · simp
    · have := ih h
      omega

lemma pairwise_fst_lt_enumFrom (n : ℕ) (l : List α) :
    List.Pairwise (fun a b => a.1 < b.1) (List.enumFrom n l) := by
  induction l generalizing n with
  | nil => simp
  | cons a l ih =>
    rw [List.enumFrom_cons, List.pairwise_cons]
    refine ⟨?_, ih (n + 1)⟩
    intro b hb
    have := le_fst_of_mem_enumFrom hb
    omega

/-- C5: for every input list of part names, the named-section list produced
by `parseNamedParts` is sorted: strictly ascending by parsed section number,
with ties broken by original traversal order (stable sort).  A concrete run
with out-of-order and duplicate numbers illustrates both clauses. -/
theorem named_sections_sorted :
    (∀ allNames : List String,
      List.Pairwise
        (fun x y => x.num < y.num ∨ (x.num = y.num ∧ x.index < y.index))
        (parseNamedParts allNames)) ∧
      parseNamedParts ["sec 2", "bed", "se 1", "SECTION 2"] =
        [⟨"se 1", 2, 1⟩, ⟨"sec 2", 0, 2⟩, ⟨"SECTION 2", 3, 2⟩] := by
  refine ⟨?_, by decide⟩
  intro allNames
  unfold parseNamedParts
  apply insertionSort_pairwise
  rw [List.pairwise_filterMap]
  have henum := pairwise_fst_lt_enumFrom 0 allNames
  refine henum.imp ?_
  intro p q hpq a ha b hb
  have hidx : ∀ (r : ℕ × String) (c : NamedPart),
      (match sectionNum r.2 with
        | some n => some (⟨r.2, r.1, n⟩ : NamedPart)
        | none => none) = some c → c.index = r.1 := by
    intro r c hc
    cases hr : sectionNum r.2 with
    | none => rw [hr] at hc; exact absurd hc (by simp)
    | some n =>
      rw [hr] at hc
      simp only [Option.some.injEq] at hc
      rw [← hc]
  rw [hidx p a ha, hidx q b hb]
  exact hpq

/-! ## Isolation engine: round-trip restoration (C2) and masking (C6) -/

lemma map_enumFrom_indep {f : ℕ × α → β} {g : α → β}
    (h : ∀ pr : ℕ × α, f pr = g pr.2) :
    ∀ (n : ℕ) (l : List α), (List.enumFrom n l).map f = l.map g := by
  intro n l
  induction l generalizing n with
  | nil => simp
  | cons a l ih => simp [List.enumFrom_cons, h (n, a), ih (n + 1)]

/-- `Isolate(null)` restores every part: structure-preserving map to
`restorePart`. -/
lemma isolate_none_eq (d : ℚ) (ps : List IsoPart) :
    isolatePart none d ps = ps.map restorePart := by
  simp only [isolatePart]
  exact map_enumFrom_indep (fun pr => by simp [restorePart]) 0 ps

/-- Restoring after any isolation equals restoring directly: `isolatePart`
never touches the saved material properties. -/
lemma restore_after_isolate (idx : Option ℕ) (d d2 : ℚ) (ps : List IsoPart) :
    isolatePart none d2 (isolatePart idx d ps) = ps.map restorePart := by
  rw [isolate_none_eq]
  simp only [isolatePart, List.map_map]
  exact map_enumFrom_indep
    (fun pr => by simp [restorePart, List.map_map, Function.comp]) 0 ps

lemma restorePart_idem (p : IsoPart) : restorePart (restorePart p) = restorePart p := by
  simp [restorePart, List.map_map, Function.comp]

/-- C2 (amended): the round trip `Isolate(null); Isolate(i, d);
Isolate(null)` leaves every material at opacity
`max(0.98, baseOpacity)` — not at `baseOpacity` itself.  The two agree
exactly when `baseOpacity ≥ 0.98`. -/
theorem isolate_roundtrip_restores :
    ∀ (d0 d d2 : ℚ) (i : ℕ) (ps : List IsoPart),
      isolatePart none d2 (isolatePart (some i) d (isolatePart none d0 ps)) =
        ps.map restorePart := by
  intro d0 d d2 i ps
  rw [restore_after_isolate, isolate_none_eq, List.map_map]
  congr 1
  funext p
  exact restorePart_idem p

/-- Counterexample to C2 as stated: a part whose captured `baseOpacity` is
0.5 comes back from the round trip at opacity 0.98, off by 0.48 — far
beyond floating-point tolerance. -/
theorem isolate_roundtrip_counterexample :
    (demoMat.saved.map Prod.snd = some 0.5) ∧
      (isolatePart none 0.01 (isolatePart (some 0) 0.22
          (isolatePart none 0.01 demoParts))).map
        (fun p => p.mats.map Mat.opacity) = [[(0.98 : ℚ)]] ∧
      (0.98 : ℚ) - 0.5 = 0.48 := by
  refine ⟨?_, ?_, by norm_num⟩
  · simp [demoMat, wrapMaterial]
    norm_num
  · rw [isolate_roundtrip_restores 0.01 0.22 0.01 0 demoParts]
    simp [demoParts, demoMat, wrapMaterial, restorePart]
    norm_num

/-- Step-indexed description of `isolatePart`'s output. -/
lemma isolatePart_get? (idx : Option ℕ) (d : ℚ) (ps : List IsoPart) (i : ℕ) :
    (isolatePart idx d ps).get? i = (ps.get? i).map fun p =>
      { visible := true
        mats := p.mats.map fun m =>
          { m with
              transparent := true
              opacity := if idx = none ∨ idx = some i then
                  max 0.98 ((m.saved.map Prod.snd).getD 1)
                else max 0.08 (min 0.5 d)
              depthWrite := true
              colorWrite := true } } := by
  have hget : ∀ (n j : ℕ) (l : List IsoPart),
      (List.enumFrom n l).get? j = (l.get? j).map fun a => (n + j, a) := by
    intro n j l
    induction l generalizing n j with
    | nil => simp
    | cons a l ih =>
      cases j with
      | zero => simp
      | succ j =>
        simp only [List.enumFrom_cons, List.get?_cons_succ, ih (n + 1) j]
        have : n + 1 + j = n + (j + 1) := by omega
        rw [this]
  have henum : ps.enum = List.enumFrom 0 ps := rfl
  simp only [isolatePart]
  rw [henum, List.get?_map, hget 0 i ps]
  cases ps.get? i with
  | none => rfl
  | some p => simp

/-- C6 (amended): `Isolate(index, dimOpacity)` forces every part's
`isVisible` to `true` (so a previously hidden part's flag does change);
materials of the target part — or of every part when `index` is null — are
restored to `max(0.98, baseOpacity)`, and materials of every other part are
set to `dimOpacity` clamped to `[0.08, 0.5]`, hence always within those
bounds. -/
theorem isolate_forces_visible_and_dims :
    ∀ (idx : Option ℕ) (d : ℚ) (ps : List IsoPart),
      (∀ p ∈ isolatePart idx d ps, p.visible = true) ∧
      ∀ (i : ℕ) (p' : IsoPart) (m : Mat),
        (isolatePart idx d ps).get? i = some p' → m ∈ p'.mats →
          (idx = none ∨ idx = some i →
            m.opacity = max 0.98 ((m.saved.map Prod.snd).getD 1)) ∧
          (idx ≠ none → idx ≠ some i →
            m.opacity = max 0.08 (min 0.5 d) ∧
              0.08 ≤ m.opacity ∧ m.opacity ≤ 0.5) := by
  intro idx d ps
  constructor
  · intro p hp
    simp only [isolatePart, List.mem_map] at hp
    obtain ⟨pr, _, rfl⟩ := hp
    rfl
  · intro i p' m hget hm
    rw [isolatePart_get? idx d ps i] at hget
    cases hps : ps.get? i with
    | none => rw [hps] at hget; exact absurd hget (by simp)
    | some p0 =>
      rw [hps] at hget
      rw [Option.map_some'] at hget
      rw [Option.some.injEq] at hget
      subst hget
      simp only [List.mem_map] at hm
      obtain ⟨m0, _, rfl⟩ := hm
      constructor
      · intro hcond
        dsimp only
        rw [if_pos hcond]
      · intro h1 h2
        have hcond : ¬(idx = none ∨ idx = some i) := by tauto
        dsimp only
        rw [if_neg hcond]
        exact ⟨rfl, le_max_left _ _, max_le (by norm_num) (min_le_left _ _)⟩

/-- Counterexample to C6 as stated: a hidden part (isVisible = false) has
its flag changed to true by `Isolate`. -/
theorem isolate_visibility_counterexample :
    demoHiddenPart.visible = false ∧
      (isolatePart (some 0) 0.22 [demoHiddenPart]).map IsoPart.visible = [true] := by
  constructor
  · rfl
  · simp [isolatePart, demoHiddenPart]

/-- Witness for C6 (amended) at a concrete part set: forced visibility and
the dim clamp at `dimOpacity = 10` (clamped to 0.5). -/
theorem isolate_forces_visible_and_dims_witness :
    (isolatePart (some 1) (10 : ℚ) demoParts).all IsoPart.visible = true ∧
      ((isolatePart (some 1) (10 : ℚ) demoParts).get? 0).map
        (fun p => p.mats.map Mat.opacity) = some [max 0.08 (min 0.5 10)] := by
  have hth := isolate_forces_visible_and_dims (some 1) (10 : ℚ) demoParts
  constructor
  · exact List.all_eq_true.mpr fun p hp => by rw [hth.1 p hp]
  · have hget : (isolatePart (some 1) (10 : ℚ) demoParts).get? 0 =
        some ⟨true, [⟨true, max 0.08 (min 0.5 10), true, true, 0, some (false, 0.5)⟩]⟩ := by
      rw [isolatePart_get? (some 1) (10 : ℚ) demoParts 0]
      simp [demoParts, demoMat, wrapMaterial]
      norm_num
    have hmain := (hth.2 0
        ⟨true, [⟨true, max 0.08 (min 0.5 10), true, true, 0, some (false, 0.5)⟩]⟩
        ⟨true, max 0.08 (min 0.5 10), true, true, 0, some (false, 0.5)⟩
        hget (by simp)).2 (by simp) (by simp)
    rw [hget]
    rw [Option.map_some']
    simp [hmain.1]

/-! ## Explode controller: entering the exploded state is idempotent (C7) -/

lemma setExplodeFull_snap (s : ExplodeSt) (hm : s.hasMixer = true)
    (hne : s.actions ≠ []) (hexp : s.explodeState = true) :
    (setExplodeFull s).actions = s.actions.map (fun a =>
        { a with enabled := true, time := a.duration, paused := true, timeScale := 1 }) ∧
      (setExplodeFull s).explodeState = true ∧
      (setExplodeFull s).hasMixer = s.hasMixer ∧
      (setExplodeFull s).zoomApplied = true ∧
      (setExplodeFull s).zoomStarts =
        (if s.zoomApplied then s.zoomStarts else s.zoomStarts + 1) := by
  unfold setExplodeFull
  rw [if_neg (by simp [hm, List.isEmpty_iff, hne]), if_pos (by simp [hexp])]
  by_cases hz : s.zoomApplied <;> simp [applyExplodedZoom, hz]

lemma setExplodeFull_play (s : ExplodeSt) (hm : s.hasMixer = true)
    (hne : s.actions ≠ []) (hexp : s.explodeState = false) :
    (setExplodeFull s).actions = s.actions.map (fun a =>
        { a with enabled := true, time := 0, paused := false, timeScale := 1 }) ∧
      (setExplodeFull s).explodeState = true ∧
      (setExplodeFull s).hasMixer = s.hasMixer ∧
      (setExplodeFull s).zoomApplied = true ∧
      (setExplodeFull s).zoomStarts =
        (if s.zoomApplied then s.zoomStarts else s.zoomStarts + 1) := by
  unfold setExplodeFull
  rw [if_neg (by simp [hm, List.isEmpty_iff, hne]), if_neg (by simp [hexp])]
  by_cases hz : s.zoomApplied <;> simp [applyExplodedZoom, hz]

/-- C7: with animation clips present and durations nonnegative, calling
`setExplode(1)` twice in a row leaves every clip at its full duration — the
same final time as calling it once (after a mixer update of at least the
longest duration); the second call immediately snaps every clip to its end
time paused (no replay); and the exploded zoom is started at most once, the
second call starting none. -/
theorem explode_enter_idempotent :
    ∀ (s : ExplodeSt) (dt : ℚ),
      s.hasMixer = true → s.actions ≠ [] →
      (∀ a ∈ s.actions, 0 ≤ a.duration ∧ a.duration ≤ dt) →
      (tick dt (setExplodeFull s)).actions.map ClipAction.time =
          s.actions.map ClipAction.duration ∧
        (tick dt (setExplodeFull (setExplodeFull s))).actions.map ClipAction.time =
          s.actions.map ClipAction.duration ∧
        (setExplodeFull (setExplodeFull s)).actions.map
            (fun a => (a.time, a.paused)) =
          s.actions.map (fun a => (a.duration, true)) ∧
        (setExplodeFull (setExplodeFull s)).zoomStarts =
          (setExplodeFull s).zoomStarts ∧
        (setExplodeFull (setExplodeFull s)).zoomStarts ≤ s.zoomStarts + 1 := by
  intro s dt hm hne hdt
  have honce :
      (tick dt (setExplodeFull s)).actions.map ClipAction.time =
          s.actions.map ClipAction.duration ∧
        (setExplodeFull s).actions.map ClipAction.duration =
          s.actions.map ClipAction.duration ∧
        (setExplodeFull s).explodeState = true ∧
        (setExplodeFull s).hasMixer = true ∧
        (setExplodeFull s).actions ≠ [] ∧
        (setExplodeFull s).zoomApplied = true ∧
        (setExplodeFull s).zoomStarts ≤ s.zoomStarts + 1 := by
    by_cases hexp : s.explodeState
    · obtain ⟨ha, he, hmx, hza, hzs⟩ := setExplodeFull_snap s hm hne hexp
      refine ⟨?_, ?_, he, by rw [hmx, hm], ?_, hza, ?_⟩
      · rw [tick, ha]
        simp only [List.map_map]
        refine List.map_congr_left ?_
        intro a _
        simp [tickAction, Function.comp]
      · rw [ha]
        simp only [List.map_map]
        refine List.map_congr_left ?_
        intro a _
        simp [Function.comp]
      · rw [ha]
        simpa using hne
      · rw [hzs]
        by_cases hz : s.zoomApplied <;> simp [hz]
    · obtain ⟨ha, he, hmx, hza, hzs⟩ :=
        setExplodeFull_play s hm hne (by simpa using hexp)
      refine ⟨?_, ?_, he, by rw [hmx, hm], ?_, hza, ?_⟩
      · rw [tick, ha]
        simp only [List.map_map]
        refine List.map_congr_left ?_
        intro a ha'
        have hd := hdt a ha'
        simp only [tickAction, Function.comp]
        rw [if_neg (by simp)]
        rw [if_pos]
        constructor
        · norm_num
        · simpa using hd.2
      · rw [ha]
        simp only [List.map_map]
        refine List.map_congr_left ?_
        intro a _
        simp [Function.comp]
      · rw [ha]
        simpa using hne
      · rw [hzs]
        by_cases hz : s.zoomApplied <;> simp [hz]
  obtain ⟨htick1, hdur1, hexp1, hmx1, hne1, hza1, hzs1⟩ := honce
  obtain ⟨ha2, _, _, hza2, hzs2⟩ := setExplodeFull_snap (setExplodeFull s) hmx1 hne1 hexp1
  have hzs2' : (setExplodeFull (setExplodeFull s)).zoomStarts =
      (setExplodeFull s).zoomStarts := by
    rw [hzs2, if_pos hza1]
  refine ⟨htick1, ?_, ?_, hzs2', by rw [hzs2']; exact hzs1⟩
  · rw [tick, ha2]
    simp only [List.map_map]
    trans (setExplodeFull s).actions.map ClipAction.duration
    · refine List.map_congr_left ?_
      intro a _
      simp [tickAction, Function.comp]
    · exact hdur1
  · rw [ha2]
    simp only [List.map_map]
    trans (setExplodeFull s).actions.map (fun a : ClipAction => (a.duration, true))
    · refine List.map_congr_left ?_
      intro a _
      simp [Function.comp]
    · calc (setExplodeFull s).actions.map (fun a : ClipAction => (a.duration, true))
          = ((setExplodeFull s).actions.map ClipAction.duration).map
              (fun d => (d, true)) := by simp [List.map_map, Function.comp]
        _ = (s.actions.map ClipAction.duration).map (fun d => (d, true)) := by
              rw [hdur1]
        _ = s.actions.map (fun a => (a.duration, true)) := by
              simp [List.map_map, Function.comp]

/-- Witness for C7 at a single 2-second clip and a 2-second update. -/
theorem explode_enter_idempotent_witness :
    (tick 2 (setExplodeFull (setExplodeFull demoExplode))).actions.map
        ClipAction.time = [2] ∧
      (setExplodeFull (setExplodeFull demoExplode)).zoomStarts ≤ 1 := by
  have h := explode_enter_idempotent demoExplode 2 rfl (by simp [demoExplode])
    (by intro a ha; simp [demoExplode] at ha; simp [ha])
  refine ⟨?_, ?_⟩
  · rw [h.2.1]
    simp [demoExplode]
  · have h2 := h.2.2.2.2
    simpa [demoExplode] using h2

/-! ## Wheel gesture router: threshold and cooldown (C8) -/

/-- C8: a modifier-free wheel event changes the stage — forward for positive
`deltaY`, backward for negative — exactly when its magnitude is at least 30
and no wheel event was accepted within the preceding 260 ms; in particular
a `deltaY = 50` event 100 ms after an accepted one is ignored. -/
theorem wheel_threshold_cooldown :
    ∀ (s : WheelSt) (now deltaY t : ℚ),
      (cooldownActive now s = false → 30 ≤ |deltaY| →
        onWheel now deltaY false s =
          { s with
              lastAccept := some now
              stage :=
                if deltaY > 0 then nextStage (totalStages s.numSections) s.stage
                else prevStage (totalStages s.numSections) s.stage }) ∧
      (cooldownActive now s = true → onWheel now deltaY false s = s) ∧
      (|deltaY| < 30 → onWheel now deltaY false s = s) ∧
      onWheel now deltaY true s = s ∧
      (s.lastAccept = some t → onWheel (t + 100) 50 false s = s) := by
  intro s now deltaY t
  refine ⟨?_, ?_, ?_, ?_, ?_⟩
  · intro hcd hδ
    simp [onWheel, hcd, not_lt.mpr hδ]
  · intro hcd
    simp [onWheel, hcd]
  · intro hδ
    by_cases hcd : cooldownActive now s <;> simp [onWheel, hcd, hδ]
  · simp [onWheel]
  · intro hla
    have hcd : cooldownActive (t + 100) s = true := by
      simp only [cooldownActive, hla]
      rw [decide_eq_true_eq]
      norm_num
    simp [onWheel, hcd]

/-- Witness for C8: the in-cooldown scenario ignores the event, and an
out-of-cooldown `deltaY = 50` advances the stage. -/
theorem wheel_threshold_cooldown_witness :
    onWheel (0 + 100) 50 false demoWheel = demoWheel ∧
      onWheel 1000 50 false demoWheel =
        { demoWheel with
            lastAccept := some 1000
            stage := nextStage (totalStages 2) 1 } := by
  constructor
  · exact (wheel_threshold_cooldown demoWheel (0 + 100) 50 0).2.2.2.2 rfl
  · have h := (wheel_threshold_cooldown demoWheel 1000 50 0).1
      (by simp only [cooldownActive, demoWheel]
          rw [decide_eq_false_iff_not]
          norm_num)
      (by rw [abs_of_pos] <;> norm_num)
    rw [h]
    have h50 : (50 : ℚ) > 0 := by norm_num
    simp [demoWheel, if_pos h50]

/-! ## Mobile promotion of descendant section names (C9) -/

mutual
lemma firstChosen_eq_find? : ∀ p : Node,
    firstChosen p = ((preorder p).find? nodeMatches).map fun o => trimS o.name
  | .mk nm m cs => by
    rw [firstChosen, preorder]
    by_cases h : trimS nm ≠ "" ∧ rxTest (trimS nm)
    · rw [if_pos h, List.find?_cons_of_pos _
        (by simpa [nodeMatches, Node.name] using h)]
      simp [Node.name]
    · rw [if_neg h, List.find?_cons_of_neg _
        (by simpa [nodeMatches, Node.name] using h)]
      exact firstChosenList_eq_find? cs
lemma firstChosenList_eq_find? : ∀ l : List Node,
    firstChosenList l = ((preorderList l).find? nodeMatches).map fun o => trimS o.name
  | [] => by simp [firstChosenList, preorderList]
  | c :: cs => by
    rw [firstChosenList, preorderList, List.find?_append,
      firstChosen_eq_find? c, firstChosenList_eq_find? cs]
    cases h : (preorder c).find? nodeMatches <;> simp [h, Option.or]
end

/-- C9: in the mobile variant, a part whose own trimmed name does not match
the section pattern but whose subtree's traverse finds a first node with a
nonempty matching trimmed name gets its name replaced by that node's
trimmed name, which matches — so the part is recognized as a named section.
The desktop variant reports each part's own (nonempty) name unchanged — no
promotion — so such a part is not recognized there. -/
theorem mobile_promotes_descendant_section_names :
    (∀ p d : Node,
      rxTest (trimS p.name) = false →
      (preorder p).find? nodeMatches = some d →
      (promotePart p).name = trimS d.name ∧
        rxTest ((promotePart p).name) = true) ∧
    (∀ (ps : List Node) (i : ℕ) (p : Node), ps.get? i = some p → p.name ≠ "" →
      (partNamesOf ps).get? i = some p.name) := by
  constructor
  · intro p d hown hfind
    have hchosen : firstChosen p = some (trimS d.name) := by
      rw [firstChosen_eq_find? p, hfind]
      rfl
    have hmatch : nodeMatches d = true := List.find?_some hfind
    have hrx : rxTest (trimS d.name) = true := by
      simpa [nodeMatches] using hmatch.symm ▸ (of_decide_eq_true hmatch).2
    have hname : (promotePart p).name = trimS d.name := by
      unfold promotePart
      rw [if_neg (by simp [hown]), hchosen]
      rfl
    refine ⟨hname, ?_⟩
    rw [hname]
    exact hrx
  · intro ps i p hget hne
    have hget' : ∀ (n j : ℕ) (l : List Node),
        (List.enumFrom n l).get? j = (l.get? j).map fun a => (n + j, a) := by
      intro n j l
      induction l generalizing n j with
      | nil => simp
      | cons a l ih =>
        cases j with
        | zero => simp
        | succ j =>
          simp only [List.enumFrom_cons, List.get?_cons_succ, ih (n + 1) j]
          have : n + 1 + j = n + (j + 1) := by omega
          rw [this]
    have henum : ps.enum = List.enumFrom 0 ps := rfl
    unfold partNamesOf
    rw [henum, List.get?_map, hget' 0 i ps, hget]
    simp [hne]

/-- Witness for C9: the demo tree's root name `"Bed"` does not match, its
descendant `" sec 4 "` does, and promotion renames the part to `"sec 4"`;
the desktop name list keeps `"Bed"`. -/
theorem mobile_promotes_descendant_section_names_witness :
    (promotePart demoTree).name = "sec 4" ∧
      rxTest ((promotePart demoTree).name) = true ∧
      partNamesOf [demoTree] = ["Bed"] := by
  have h := mobile_promotes_descendant_section_names
  have h1 := h.1 demoTree (.mk " sec 4 " true [])
    (by decide)
    (by rfl)
  have hname : trimS (Node.name (.mk " sec 4 " true [])) = "sec 4" := by decide
  refine ⟨?_, ?_, ?_⟩
  · rw [h1.1, hname]
  · exact h1.2
  · have h2 := h.2 [demoTree] 0 demoTree rfl (by decide)
    have hlen : (partNamesOf [demoTree]).length = 1 := by
      simp [partNamesOf, demoTree]
    cases hp : partNamesOf [demoTree] with
    | nil => rw [hp] at hlen; simp at hlen
    | cons a l =>
      rw [hp] at h2 hlen
      simp only [List.get?_cons_zero, Option.some.injEq] at h2
      simp only [List.length_cons] at hlen
      have hl : l = [] := List.eq_nil_of_length_eq_zero (by omega)
      subst hl
      rw [h2]
      rfl

/-! ## Load failure tears the previous asset down first (C1) -/

/-- Counterexample to C1 as stated: with an asset loaded (one part named
`"sec 1"`, one clip), loading a source with no scene root rejects — but the
part list, the part names, the clip table and the displayed model are *not*
the same as before: they have been cleared. -/
theorem load_failure_counterexample :
    (loadGLB demoLoaded demoBadGLTF).1 = false ∧
      (loadGLB demoLoaded demoBadGLTF).2.partNames ≠ demoLoaded.partNames ∧
      (loadGLB demoLoaded demoBadGLTF).2.clipNames ≠ demoLoaded.clipNames ∧
      (loadGLB demoLoaded demoBadGLTF).2.parts.length ≠ demoLoaded.parts.length ∧
      (loadGLB demoLoaded demoBadGLTF).2.currentModel.isSome ≠
        demoLoaded.currentModel.isSome := by
  refine ⟨rfl, by decide, by decide, by decide, by decide⟩

/-- C1 (amended): when the new source has no usable scene root, `loadGLB`
rejects — but it has already removed and disposed the previous model and
cleared the part list, part names, clip tables and mixer, so the failed
load leaves the cleared state, not the previous asset. -/
theorem load_failure_clears_state :
    ∀ (s : LoadState) (g : GLTF), rootOf g = none →
      loadGLB s g = (false, clearedLoadState) := by
  intro s g h
  unfold loadGLB
  rw [h]

/-- Witness for C1 (amended) at the demo state and rootless source. -/
theorem load_failure_clears_state_witness :
    loadGLB demoLoaded demoBadGLTF = (false, clearedLoadState) :=
  load_failure_clears_state demoLoaded demoBadGLTF rfl

/-! ## Orbit retargeting is total (C10) -/

/-- C10: `setOrbitTargetTo` is total and never signals an error: with
controls present, a null, negative or out-of-range index sets the desired
target to the asset centroid, an in-range index sets it to the center of
that part's world bounding box, and in every case nothing but
`targetDesired` is written. -/
theorem orbit_target_total :
    ∀ (idx : Option ℤ) (s : OrbitState), s.hasControls = true →
      (idx = none → setOrbitTargetTo idx s = { s with targetDesired := s.centroid }) ∧
      (∀ i : ℤ, idx = some i → (i < 0 ∨ (s.partBoxes.length : ℤ) ≤ i) →
        setOrbitTargetTo idx s = { s with targetDesired := s.centroid }) ∧
      (∀ i : ℤ, idx = some i → 0 ≤ i → i < (s.partBoxes.length : ℤ) →
        ∃ b, s.partBoxes.get? i.toNat = some b ∧
          setOrbitTargetTo idx s = { s with targetDesired := boxCenter b.1 b.2 }) := by
  intro idx s hc
  refine ⟨?_, ?_, ?_⟩
  · rintro rfl
    simp [setOrbitTargetTo, hc]
  · rintro i rfl hout
    simp only [setOrbitTargetTo]
    rw [if_neg (by simp [hc]), if_pos hout]
  · rintro i rfl h0 hlen
    have hnat : i.toNat < s.partBoxes.length := by omega
    obtain ⟨b, hb⟩ : ∃ b, s.partBoxes.get? i.toNat = some b :=
      ⟨_, List.get?_eq_get hnat⟩
    refine ⟨b, hb, ?_⟩
    simp only [setOrbitTargetTo]
    rw [if_neg (by simp [hc]), if_neg (by omega)]
    unfold getPartWorldCenter
    rw [hb]

/-- Witness for C10: an out-of-range index falls back to the centroid and
an in-range index targets the part's box center. -/
theorem orbit_target_total_witness :
    setOrbitTargetTo (some (-5)) demoOrbit =
        { demoOrbit with targetDesired := demoOrbit.centroid } ∧
      setOrbitTargetTo (some 0) demoOrbit =
        { demoOrbit with targetDesired := boxCenter ⟨0, 0, 0⟩ ⟨2, 4, 6⟩ } := by
  constructor
  · exact (orbit_target_total (some (-5)) demoOrbit rfl).2.1 (-5) rfl
      (Or.inl (by norm_num))
  · obtain ⟨b, hb, heq⟩ := (orbit_target_total (some 0) demoOrbit rfl).2.2 0 rfl
      (by norm_num) (by simp [demoOrbit])
    rw [heq]
    simp only [demoOrbit, Int.toNat_zero, List.get?_cons_zero,
      Option.some.injEq] at hb
    rw [← hb]

end Mattress
